import Mathlib

/-!
# Verification of the Qcover utility modules

A shallow embedding, over the rationals, of the three source files

* `Qcover/applications/common.py` (QUBO → Ising matrix conversion, the
  weighted-graph construction, and `get_most_small_ising`),
* `Qcover/applications/max_cut.py` (the `MaxCut` problem wrapper),
* `Qcover/backends/circuitbytensor.py` (the `CircuitByTensor` evaluator),

together with theorems settling the frozen claims about them.  Matrix
entries, parameters and weights are modelled as rationals; the quimb
contraction routine `local_expectation` (an external library call) is kept
as an explicit function parameter; `networkx` graphs are modelled by their
node-membership, node-weight and edge-weight maps.
-/

open Finset

/-- A square matrix: a size together with an entry function (entries outside
the `n × n` window are irrelevant to every operation below). -/
structure Mat where
  n : ℕ
  ent : ℕ → ℕ → ℚ

/-- Embedding of `get_ising_matrix` (common.py, lines 12-32): the diagonal is
`Q[i][i]/2 + sum(Q[i]) - Q[i][i]` and each off-diagonal entry is `Q[i][j]/4`;
`np.sum(qubo_mat[i])` is the full row sum over the `n` columns. -/
def get_ising_matrix (n : ℕ) (q : ℕ → ℕ → ℚ) : ℕ → ℕ → ℚ := fun i j =>
  if i = j then q i i / 2 + (∑ k ∈ Finset.range n, q i k) - q i i
  else q i j / 4

/-- `get_ising_matrix` on a packaged matrix (`mat_len = np.size(qubo_mat, 0)`). -/
def get_ising_matrixM (m : Mat) : Mat :=
  ⟨m.n, get_ising_matrix m.n m.ent⟩

/-- QUBO energy `x^T Q x`, as used in the claim about `get_ising_matrix`. -/
def quboEnergy (n : ℕ) (q : ℕ → ℕ → ℚ) (x : ℕ → ℚ) : ℚ :=
  ∑ i ∈ Finset.range n, ∑ j ∈ Finset.range n, q i j * x i * x j

/-- Ising energy `sum_i h_i s_i + sum_{i ≠ j} J_ij s_i s_j` of a matrix whose
diagonal holds the fields `h_i` and whose off-diagonal entries are the
couplings `J_ij`, the quadratic sum ranging over ordered pairs `i ≠ j`. -/
def isingEnergy (n : ℕ) (m : ℕ → ℕ → ℚ) (s : ℕ → ℚ) : ℚ :=
  (∑ i ∈ Finset.range n, m i i * s i) +
    ∑ i ∈ Finset.range n, ∑ j ∈ Finset.range n,
      (if i = j then 0 else m i j * s i * s j)

/-- The spins `s_i = 2 x_i - 1` of a 0/1 vector `x`. -/
def spinOf (x : ℕ → ℚ) : ℕ → ℚ := fun i => 2 * x i - 1

/-- The 2×2 QUBO matrix with zero diagonal and unit off-diagonal entries,
used to refute the constant-difference claim about `get_ising_matrix`. -/
def qXor : ℕ → ℕ → ℚ := fun i j =>
  if i ≠ j ∧ i < 2 ∧ j < 2 then 1 else 0

/-- A `networkx` undirected graph, modelled by its node list (in insertion
order), its `weight` node attributes and its `weight` edge attributes.
`nodew nd = none` means node `nd` carries no weight attribute, and
`edgew u v = none` means there is no edge between `u` and `v`. -/
structure NXGraph where
  nodes : List ℕ
  nodew : ℕ → Option ℚ
  edgew : ℕ → ℕ → Option ℚ

/-- The empty `nx.Graph()`. -/
def NXGraph.empty : NXGraph :=
  ⟨[], fun _ => none, fun _ _ => none⟩

/-- `graph.add_node(nd, weight=w)`: inserts the node if absent and sets its
weight attribute. -/
def NXGraph.addNode (g : NXGraph) (nd : ℕ) (w : ℚ) : NXGraph :=
  { nodes := if nd ∈ g.nodes then g.nodes else g.nodes ++ [nd]
    nodew := Function.update g.nodew nd (some w)
    edgew := g.edgew }

/-- `graph.add_edge(u, v, weight=w)`: inserts the (undirected) edge with the
given weight, inserting the endpoints as (attribute-less) nodes if absent. -/
def NXGraph.addEdge (g : NXGraph) (u v : ℕ) (w : ℚ) : NXGraph :=
  { nodes :=
      let ns := if u ∈ g.nodes then g.nodes else g.nodes ++ [u]
      if v ∈ ns then ns else ns ++ [v]
    nodew := g.nodew
    edgew := fun a b =>
      if (a = u ∧ b = v) ∨ (a = v ∧ b = u) then some w else g.edgew a b }

/-- The body of the double loop of `get_weights_graph` (common.py, lines
56-63), for row `i` and column `j`. -/
def gwStep (m : Mat) (node_map : ℕ → ℕ) (i : ℕ) (g : NXGraph) (j : ℕ) : NXGraph :=
  if i = j then g.addNode (node_map i) (m.ent i i)
  else if |m.ent i j - 0| ≤ 1 / 100000000 then g
  else g.addEdge (node_map i) (node_map j) (m.ent i j)

/-- Embedding of `get_weights_graph` (common.py, lines 35-65): the node map
is the identity when no graph is passed, and positional indexing into the
given graph's node list otherwise (`defaultdict(int)` yields `0` past the
end); then a double loop adds one weighted node per diagonal entry and one
weighted edge per off-diagonal entry exceeding the `1e-8` threshold. -/
def get_weights_graph (m : Mat) (graphOpt : Option NXGraph) : NXGraph :=
  let node_map : ℕ → ℕ :=
    match graphOpt with
    | some g0 => fun i => g0.nodes.getD i 0
    | none => fun i => i
  (List.range m.n).foldl
    (fun g i => (List.range m.n).foldl (gwStep m node_map i) g)
    NXGraph.empty

/-- The spin list `tw` built by `get_most_small_ising` (common.py, lines
77-81) from a bitstring key: `-1` for character `'0'` (modelled as `false`),
`+1` otherwise. -/
def twOf (key : List Bool) : List ℚ :=
  key.map fun c => if c = false then -1 else 1

/-- The Ising energy `tmp_h` computed by `get_most_small_ising` (common.py,
lines 75-88) for one key: node weights times spins, plus non-self-loop edge
weights times the product of the endpoint spins.  The node and edge weight
attributes of `ising_g` are passed as association lists, in the iteration
order of `nx.get_node_attributes` / `nx.get_edge_attributes`. -/
def keyEnergy (nodew : List (ℕ × ℚ)) (edw : List ((ℕ × ℕ) × ℚ))
    (key : List Bool) : ℚ :=
  (nodew.map fun p => p.2 * (twOf key).getD p.1 0).sum +
    (edw.map fun p =>
      if p.1.1 = p.1.2 then 0
      else p.2 * (twOf key).getD p.1.1 0 * (twOf key).getD p.1.2 0).sum

/-- The `res_state` conversion of `get_most_small_ising` (common.py, line
92): the chosen bitstring key as a list of integers. -/
def keyToInts (key : List Bool) : List ℕ :=
  key.map fun b => if b then 1 else 0

/-- One step of the minimisation loop of `get_most_small_ising`: the
accumulator holds `min_h` and the currently assigned `res_state` (`none`
while `res_state` is still unbound). -/
def gmsStep (nodew : List (ℕ × ℚ)) (edw : List ((ℕ × ℕ) × ℚ))
    (acc : ℚ × Option (List ℕ)) (kv : List Bool × ℕ) : ℚ × Option (List ℕ) :=
  let tmp_h := keyEnergy nodew edw kv.1
  if acc.1 > tmp_h then (tmp_h, some (keyToInts kv.1)) else acc

/-- Embedding of `get_most_small_ising` (common.py, lines 68-93):
`state_count` is an association list of bitstring keys to counts (the counts
are never read), iterated in insertion order; `min_h` starts at `999999`.
Returning `none` models the `UnboundLocalError` raised when `res_state` was
never assigned. -/
def get_most_small_ising (state_count : List (List Bool × ℕ))
    (nodew : List (ℕ × ℚ)) (edw : List ((ℕ × ℕ) × ℚ)) : Option (List ℕ) :=
  (state_count.foldl (gmsStep nodew edw) ((999999 : ℚ), none)).2

/-- The state of a `MaxCut` instance (max_cut.py, lines 22-40): the graph is
modelled by its weighted adjacency matrix (`nx.adjacency_matrix(...).A` is an
external library call), and `_qmatrix` is `None` until `run` caches it. -/
structure MaxCutState where
  node_num : ℕ
  graph : Mat
  qmatrix : Option Mat

/-- Embedding of `MaxCut.update_random_graph` (max_cut.py, lines 50-55): the
random graph produced by `random_regular_graph` is passed in as `g`; only
`_node_num` and `_graph` are assigned. -/
def MaxCut.update_random_graph (s : MaxCutState) (node_num : ℕ) (g : Mat) :
    MaxCutState :=
  { node_num := node_num, graph := g, qmatrix := s.qmatrix }

/-- The diagonal-rewriting loop of `MaxCut.get_Qmatrix` (max_cut.py, lines
66-71): starting from a copy of the adjacency matrix, each diagonal entry
`i < node_num` becomes `-(sum of row i of adj_mat - adj_mat[i][i])`. -/
def qmatrixLoop (node_num : ℕ) (m : Mat) : ℕ → ℕ → ℚ :=
  (List.range node_num).foldl
    (fun q i => fun a b =>
      if a = i ∧ b = i then -((∑ k ∈ Finset.range m.n, m.ent i k) - m.ent i i)
      else q a b)
    m.ent

/-- Embedding of `MaxCut.get_Qmatrix` (max_cut.py, lines 57-71). -/
def MaxCut.get_Qmatrix (s : MaxCutState) : Mat :=
  ⟨s.graph.n, qmatrixLoop s.node_num s.graph⟩

/-- Embedding of `MaxCut.max_cut_value` (max_cut.py, lines 73-84):
`np.sum(w * np.outer(x, 1 - x))` over an `n × n` matrix. -/
def MaxCut.max_cut_value (n : ℕ) (x : ℕ → ℚ) (w : ℕ → ℕ → ℚ) : ℚ :=
  ∑ i ∈ Finset.range n, ∑ j ∈ Finset.range n, w i j * (x i * (1 - x j))

/-- Embedding of `MaxCut.run` (max_cut.py, lines 86-93): computes and caches
the Q matrix if `_qmatrix` is `None`, then returns the weighted graph of the
Ising matrix of the cached Q matrix, together with the updated state. -/
def MaxCut.run (s : MaxCutState) : MaxCutState × NXGraph :=
  let qm := match s.qmatrix with
    | none => MaxCut.get_Qmatrix s
    | some m => m
  ({ s with qmatrix := some qm },
    get_weights_graph (get_ising_matrixM qm) none)

/-- The gates applied by `CircuitByTensor.get_expectation`
(circuitbytensor.py, lines 46-60), with their angle parameters. -/
inductive Gate where
  | H (q : ℕ)
  | rz (theta : ℚ) (q : ℕ)
  | RZZ (theta : ℚ) (q1 q2 : ℕ)
  | rx (theta : ℚ) (q : ℕ)
deriving DecidableEq, Repr

/-- The observable measured by `get_expectation`: `Z` for a node element,
`Z ⊗ Z` for an edge element. -/
inductive Obs where
  | Z
  | ZZ
deriving DecidableEq, Repr

/-- An element of `_element_to_graph`: either an `int` node or an edge
tuple. -/
inductive Element where
  | node (nd : ℕ)
  | edge (u v : ℕ)
deriving DecidableEq, Repr

/-- A graph value of `_element_to_graph`, with the node and edge iteration
orders of the underlying `networkx` graph. -/
structure QGraph where
  nodes : List ℕ
  edges : List (ℕ × ℕ)
deriving DecidableEq, Repr

/-- The `quimb` contraction routine `circ.local_expectation(obs, where,
optimize=opt)` (an external library call), given the number of qubits of the
circuit, its gate list, the observable, the measured qubits and the
optimizer string; returns a complex number as a (real, imaginary) pair. -/
def LocalExpectation : Type :=
  ℕ → List Gate → Obs → List ℕ → String → ℚ × ℚ

/-- The fields of a `CircuitByTensor` instance (circuitbytensor.py, lines
16-34), at a point where `_p`, `_pargs` and `_element_to_graph` have been
set. -/
structure CBTState where
  p : ℕ
  nodes_weight : ℕ → ℚ
  edges_weight : ℕ → ℕ → ℚ
  is_parallel : Bool
  opt : String
  element_to_graph : List (Element × QGraph)
  pargs : List ℚ
  expectation_path : List ℚ

/-- The `node_to_qubit` loop of `get_expectation` (circuitbytensor.py, lines
38-41): `i` is the running index, writes overwrite earlier entries, and the
`defaultdict(int)` default is `0`. -/
def n2qGo : ℕ → List ℕ → (ℕ → ℕ) → (ℕ → ℕ)
  | _, [], mp => mp
  | i, nd :: rest, mp => n2qGo (i + 1) rest (Function.update mp nd i)

/-- The finished `node_to_qubit` mapping of `get_expectation`. -/
def node_to_qubit (node_list : List ℕ) : ℕ → ℕ :=
  n2qGo 0 node_list fun _ => 0

/-- The gates applied in layer `k` of the circuit built by `get_expectation`
(circuitbytensor.py, lines 46-60), in application order: per node an `H`
(only in layer 0) followed by an `rz`, then per non-degenerate edge an
`RZZ`, then per node an `rx`. -/
def buildLayer (gamma beta : ℕ → ℚ) (nw : ℕ → ℚ) (ew : ℕ → ℕ → ℚ)
    (g : QGraph) (n2q : ℕ → ℕ) (k : ℕ) : List Gate :=
  (g.nodes.flatMap fun nd =>
    (if k = 0 then [Gate.H (n2q nd)] else []) ++
      [Gate.rz (2 * gamma k * nw nd) (n2q nd)]) ++
  (g.edges.filterMap fun e =>
    if n2q e.1 = n2q e.2 then none
    else some (Gate.RZZ (-(gamma k) * ew e.1 e.2) (n2q e.1) (n2q e.2))) ++
  (g.nodes.map fun nd => Gate.rx (2 * beta k) (n2q nd))

/-- The full gate list of the circuit built by `get_expectation`, over the
`p` layers. -/
def buildCircuit (p : ℕ) (gamma beta : ℕ → ℚ) (nw : ℕ → ℚ) (ew : ℕ → ℕ → ℚ)
    (g : QGraph) (n2q : ℕ → ℕ) : List Gate :=
  (List.range p).flatMap (buildLayer gamma beta nw ew g n2q)

/-- Embedding of `CircuitByTensor.get_expectation` (circuitbytensor.py,
lines 36-71): builds the parameterized circuit on `len(graph.nodes)` qubits
(`gamma_list`/`beta_list` are `_pargs[:p]`/`_pargs[p:]`, indexed with
default `0` out of range) and returns the real part of the local expectation
of `Z` (node element) or `Z ⊗ Z` (edge element) times the element's
weight. -/
def get_expectation (le : LocalExpectation) (c : CBTState)
    (eg : Element × QGraph) : ℚ :=
  let graph := eg.2
  let n2q := node_to_qubit graph.nodes
  let gamma : ℕ → ℚ := fun k => (c.pargs.take c.p).getD k 0
  let beta : ℕ → ℚ := fun k => (c.pargs.drop c.p).getD k 0
  let circ := buildCircuit c.p gamma beta c.nodes_weight c.edges_weight graph n2q
  match eg.1 with
  | Element.node nd =>
      (le graph.nodes.length circ Obs.Z [n2q nd] c.opt).1 * c.nodes_weight nd
  | Element.edge u v =>
      (le graph.nodes.length circ Obs.ZZ [n2q u, n2q v] c.opt).1 *
        c.edges_weight u v

/-- Embedding of `CircuitByTensor.expectation_calculation_serial`
(circuitbytensor.py, lines 79-92): accumulates the per-element expectations
in iteration order, appends the total to `_expectation_path`, and returns
it (the `os.environ` thread-count assignments are not modelled). -/
def expectation_calculation_serial (le : LocalExpectation) (c : CBTState) :
    ℚ × CBTState :=
  let res := c.element_to_graph.foldl
    (fun acc item => acc + get_expectation le c item) 0
  (res, { c with expectation_path := c.expectation_path ++ [res] })

/-- Embedding of `CircuitByTensor.expectation_calculation_parallel`
(circuitbytensor.py, lines 94-112): `pool.map` of `get_expectation` over the
items (order-preserving), then the sum of the mapped list. -/
def expectation_calculation_parallel (le : LocalExpectation) (c : CBTState) :
    ℚ × CBTState :=
  let circ_res := c.element_to_graph.map (get_expectation le c)
  let res := circ_res.sum
  (res, { c with expectation_path := c.expectation_path ++ [res] })

/-- Embedding of `CircuitByTensor.expectation_calculation`
(circuitbytensor.py, lines 73-77). -/
def expectation_calculation (le : LocalExpectation) (c : CBTState) :
    ℚ × CBTState :=
  if c.is_parallel then expectation_calculation_parallel le c
  else expectation_calculation_serial le c

/-- The layer-`k` gates as the claim describes them: `H` on every qubit only
when `k = 0`, then `rz(2*gamma_k*nodes_weight[nd])` on every node's qubit,
then `RZZ(-gamma_k*edges_weight[(u,v)])` on every edge whose two endpoints
are distinct nodes (self-loop edges skipped), then `rx(2*beta_k)` on every
node's qubit, the qubit of a node being its position in the node list. -/
def claimLayer (c : CBTState) (g : QGraph) (k : ℕ) : List Gate :=
  (g.nodes.flatMap fun nd =>
    (if k = 0 then [Gate.H (g.nodes.indexOf nd)] else []) ++
      [Gate.rz (2 * (c.pargs.getD k 0) * c.nodes_weight nd)
        (g.nodes.indexOf nd)]) ++
  (g.edges.filterMap fun e =>
    if e.1 = e.2 then none
    else some (Gate.RZZ (-(c.pargs.getD k 0) * c.edges_weight e.1 e.2)
      (g.nodes.indexOf e.1) (g.nodes.indexOf e.2))) ++
  (g.nodes.map fun nd =>
    Gate.rx (2 * (c.pargs.getD (c.p + k) 0)) (g.nodes.indexOf nd))

/-- The circuit as the claim describes it: layers `k = 0 .. p-1`, with
`gamma` the first `p` parameters and `beta` the last `p` parameters. -/
def claimCircuit (c : CBTState) (g : QGraph) : List Gate :=
  (List.range c.p).flatMap (claimLayer c g)

/-- The observable the claim assigns to an element: `Z` for a node, `Z ⊗ Z`
for an edge. -/
def claimObs : Element → Obs
  | Element.node _ => Obs.Z
  | Element.edge _ _ => Obs.ZZ

/-- The measured qubits the claim assigns to an element: the node's qubit,
or the two endpoint qubits, a node's qubit being its position in the node
list. -/
def claimWhere (g : QGraph) : Element → List ℕ
  | Element.node nd => [g.nodes.indexOf nd]
  | Element.edge u v => [g.nodes.indexOf u, g.nodes.indexOf v]

/-- The weight the claim assigns to an element: its node weight or its edge
weight. -/
def claimWeight (c : CBTState) : Element → ℚ
  | Element.node nd => c.nodes_weight nd
  | Element.edge u v => c.edges_weight u v

/-- A concrete stand-in for the `quimb` contraction routine, used by the
witnesses. -/
def leFix : LocalExpectation := fun _ _ _ _ _ => (1, 0)

/-- A concrete two-node, one-edge element graph, used by the witnesses. -/
def gFix : QGraph := ⟨[5, 7], [(5, 7)]⟩

/-- A concrete `CircuitByTensor` state, used by the witnesses. -/
def cFix : CBTState :=
  { p := 1
    nodes_weight := fun _ => 1
    edges_weight := fun _ _ => 1
    is_parallel := false
    opt := "greedy"
    element_to_graph := [(Element.node 5, gFix), (Element.edge 5 7, gFix)]
    pargs := [1/2, 1/3]
    expectation_path := [] }

/-- A concrete fresh `MaxCut` state (Q matrix not yet cached), used by the
witnesses and counterexamples. -/
def sFix : MaxCutState :=
  { node_num := 2, graph := ⟨2, qXor⟩, qmatrix := none }

/-- A concrete `MaxCut` state whose Q matrix has been cached, used by the
witnesses. -/
def sqFix : MaxCutState :=
  { node_num := 2, graph := ⟨2, qXor⟩, qmatrix := some ⟨2, qXor⟩ }

/-- A concrete replacement graph for `update_random_graph`, used by the
witnesses. -/
def gPrime : Mat :=
  ⟨3, fun i j => if i = j then 2 else 0⟩


/-- A concrete `state_count` association list, used by the C9 witness. -/
def scFix : List (List Bool × ℕ) := [([true, false], 1), ([false, false], 2)]

/-- Concrete node-weight attributes of an Ising graph, used by the C9
witness. -/
def nodewFix : List (ℕ × ℚ) := [(0, 2), (1, 3)]

/-- Concrete edge-weight attributes of an Ising graph, used by the C9
witness. -/
def edwFix : List ((ℕ × ℕ) × ℚ) := [((0, 1), 1)]

/-- A concrete `state_count` whose only key has energy at least `999999`,
used by the C9 witness. -/
def scHigh : List (List Bool × ℕ) := [([true], 1)]

/-- Node-weight attributes making every key energy at least `999999`, used
by the C9 witness. -/
def nodewHigh : List (ℕ × ℚ) := [(0, 1000000)]

/- ### Theorems -/

/-- Accumulating a sum with `foldl`, as the serial loop of
`expectation_calculation_serial` does, computes the sum of the mapped
list. -/
lemma foldl_add_eq_sum {α : Type} (f : α → ℚ) (l : List α) (a : ℚ) :
    l.foldl (fun acc x => acc + f x) a = a + (l.map f).sum := by
  induction l generalizing a with
  | nil => simp
  | cons x xs ih => simp [List.foldl_cons, ih, add_assoc]

/-- C1, counterexample: for the symmetric QUBO matrix `[[0,1],[1,0]]` there
is no constant `c` with Ising energy = QUBO energy + `c` over all 0/1
vectors `x` (the difference is `-3/2` at `x = (0,0)` but `1/2` at
`x = (1,1)`). -/
theorem C1_counterexample :
    ¬ ∃ c : ℚ, ∀ x : ℕ → ℚ, (∀ i, x i = 0 ∨ x i = 1) →
      isingEnergy 2 (get_ising_matrix 2 qXor) (spinOf x) =
        quboEnergy 2 qXor x + c := by
  rintro ⟨c, hc⟩
  have h0 := hc (fun _ => 0) (fun _ => Or.inl rfl)
  have h1 := hc (fun _ => 1) (fun _ => Or.inr rfl)
  simp only [isingEnergy, quboEnergy, get_ising_matrix, qXor, spinOf,
    Finset.sum_range_succ, Finset.sum_range_zero] at h0 h1
  norm_num at h0 h1
  rw [← h0] at h1
  norm_num at h1

/-- C1, amended: for every symmetric matrix `Q` and 0/1 vector `x` with
spins `s i = 2 x i - 1`, the Ising energy of `get_ising_matrix Q` equals the
QUBO energy `x^T Q x` plus the constant `-(trace Q + total Q)/4` plus the
`x`-dependent linear term `∑ i (S i / 2) * s i`, where `S i` is the
off-diagonal row sum of `Q`; so the difference is a constant independent of
`x` exactly when every off-diagonal row sum of `Q` vanishes, not in
general. -/
theorem C1_ising_qubo_relation (n : ℕ) (q : ℕ → ℕ → ℚ) (x : ℕ → ℚ)
    (hsym : ∀ i j, q i j = q j i) (hx : ∀ i, x i = 0 ∨ x i = 1) :
    isingEnergy n (get_ising_matrix n q) (spinOf x) =
      quboEnergy n q x
        - ((∑ i ∈ Finset.range n, q i i) +
            ∑ i ∈ Finset.range n, ∑ j ∈ Finset.range n, q i j) / 4
        + ∑ i ∈ Finset.range n,
            (((∑ j ∈ Finset.range n, q i j) - q i i) / 2) * (2 * x i - 1) := by
  have hB2 : (∑ i ∈ Finset.range n, ∑ j ∈ Finset.range n, q i j * x j)
      = ∑ i ∈ Finset.range n, ∑ j ∈ Finset.range n, q i j * x i := by
    rw [Finset.sum_comm]
    exact Finset.sum_congr rfl fun j _ => Finset.sum_congr rfl fun i _ => by
      rw [hsym i j]
  have lin : (∑ i ∈ Finset.range n, get_ising_matrix n q i i * spinOf x i)
      = 2 * (∑ i ∈ Finset.range n, ∑ j ∈ Finset.range n, q i j * x i)
        - (∑ i ∈ Finset.range n, ∑ j ∈ Finset.range n, q i j)
        - (∑ i ∈ Finset.range n, q i i * x i)
        + (∑ i ∈ Finset.range n, q i i) / 2 := by
    calc (∑ i ∈ Finset.range n, get_ising_matrix n q i i * spinOf x i)
        = ∑ i ∈ Finset.range n,
            ((2 * ∑ j ∈ Finset.range n, q i j * x i)
              - (∑ j ∈ Finset.range n, q i j) - q i i * x i + q i i / 2) := by
          refine Finset.sum_congr rfl fun i _ => ?_
          rw [get_ising_matrix, if_pos rfl, spinOf, ← Finset.sum_mul]
          ring
      _ = _ := by
          simp only [Finset.sum_add_distrib, Finset.sum_sub_distrib,
            ← Finset.sum_div, ← Finset.mul_sum]
  have quad1 : (∑ i ∈ Finset.range n, ∑ j ∈ Finset.range n,
        (if i = j then 0 else get_ising_matrix n q i j * spinOf x i * spinOf x j))
      = (∑ i ∈ Finset.range n, ∑ j ∈ Finset.range n,
          q i j / 4 * spinOf x i * spinOf x j)
        - ∑ i ∈ Finset.range n, q i i / 4 * spinOf x i * spinOf x i := by
    rw [← Finset.sum_sub_distrib]
    refine Finset.sum_congr rfl fun i hi => ?_
    have step : ∀ j,
        (if i = j then 0 else get_ising_matrix n q i j * spinOf x i * spinOf x j)
        = q i j / 4 * spinOf x i * spinOf x j
          - (if i = j then q i j / 4 * spinOf x i * spinOf x j else 0) := by
      intro j
      by_cases h : i = j
      · subst h; simp
      · rw [if_neg h, if_neg h, get_ising_matrix, if_neg h]; ring
    simp only [step]
    rw [Finset.sum_sub_distrib, Finset.sum_ite_eq (Finset.range n) i
      (fun j => q i j / 4 * spinOf x i * spinOf x j), if_pos hi]
  have quad2 : (∑ i ∈ Finset.range n, ∑ j ∈ Finset.range n,
        q i j / 4 * spinOf x i * spinOf x j)
      = (∑ i ∈ Finset.range n, ∑ j ∈ Finset.range n, q i j * x i * x j)
        - (∑ i ∈ Finset.range n, ∑ j ∈ Finset.range n, q i j * x i) / 2
        - (∑ i ∈ Finset.range n, ∑ j ∈ Finset.range n, q i j * x j) / 2
        + (∑ i ∈ Finset.range n, ∑ j ∈ Finset.range n, q i j) / 4 := by
    calc (∑ i ∈ Finset.range n, ∑ j ∈ Finset.range n,
          q i j / 4 * spinOf x i * spinOf x j)
        = ∑ i ∈ Finset.range n, ∑ j ∈ Finset.range n,
            (q i j * x i * x j - q i j * x i / 2 - q i j * x j / 2 + q i j / 4) := by
          refine Finset.sum_congr rfl fun i _ => Finset.sum_congr rfl fun j _ => ?_
          simp only [spinOf]; ring
      _ = _ := by
          simp only [Finset.sum_add_distrib, Finset.sum_sub_distrib, ← Finset.sum_div]
  have quad3 : (∑ i ∈ Finset.range n, q i i / 4 * spinOf x i * spinOf x i)
      = (∑ i ∈ Finset.range n, q i i) / 4 := by
    rw [Finset.sum_div]
    refine Finset.sum_congr rfl fun i _ => ?_
    rcases hx i with h | h <;> rw [spinOf, h] <;> ring
  have rhs1 : (∑ i ∈ Finset.range n,
        (((∑ j ∈ Finset.range n, q i j) - q i i) / 2) * (2 * x i - 1))
      = (∑ i ∈ Finset.range n, ∑ j ∈ Finset.range n, q i j * x i)
        - (∑ i ∈ Finset.range n, ∑ j ∈ Finset.range n, q i j) / 2
        - (∑ i ∈ Finset.range n, q i i * x i)
        + (∑ i ∈ Finset.range n, q i i) / 2 := by
    calc (∑ i ∈ Finset.range n,
          (((∑ j ∈ Finset.range n, q i j) - q i i) / 2) * (2 * x i - 1))
        = ∑ i ∈ Finset.range n,
            ((∑ j ∈ Finset.range n, q i j * x i)
              - (∑ j ∈ Finset.range n, q i j) / 2 - q i i * x i + q i i / 2) := by
          refine Finset.sum_congr rfl fun i _ => ?_
          rw [← Finset.sum_mul]
          ring
      _ = _ := by
          simp only [Finset.sum_add_distrib, Finset.sum_sub_distrib, ← Finset.sum_div]
  rw [isingEnergy, quboEnergy, lin, quad1, quad2, quad3, hB2, rhs1]
  ring

/-- Witness for C1's amended theorem at `Q = qXor`, `x = (1,1)`. -/
theorem C1_witness :
    (∀ i j, qXor i j = qXor j i) ∧
      isingEnergy 2 (get_ising_matrix 2 qXor) (spinOf fun _ => 1) =
        quboEnergy 2 qXor (fun _ => 1)
          - ((∑ i ∈ Finset.range 2, qXor i i) +
              ∑ i ∈ Finset.range 2, ∑ j ∈ Finset.range 2, qXor i j) / 4
          + ∑ i ∈ Finset.range 2,
              (((∑ j ∈ Finset.range 2, qXor i j) - qXor i i) / 2) *
                (2 * 1 - 1) :=
  ⟨fun i j => if_congr (by tauto) rfl rfl,
    C1_ising_qubo_relation 2 qXor (fun _ => 1)
      (fun i j => if_congr (by tauto) rfl rfl) (fun _ => Or.inr rfl)⟩

/-- C2: `expectation_calculation_serial` returns the sum of
`get_expectation` over the items of `_element_to_graph` in iteration order,
appends that total to `_expectation_path`, and `expectation_calculation`
with `is_parallel` false delegates to it. -/
theorem C2_serial_sum (le : LocalExpectation) (c : CBTState)
    (h : c.is_parallel = false) :
    (expectation_calculation_serial le c).1
        = (c.element_to_graph.map (get_expectation le c)).sum
      ∧ (expectation_calculation_serial le c).2.expectation_path
        = c.expectation_path ++ [(expectation_calculation_serial le c).1]
      ∧ expectation_calculation le c = expectation_calculation_serial le c := by
  refine ⟨?_, rfl, ?_⟩
  · show c.element_to_graph.foldl (fun acc item => acc + get_expectation le c item) 0
        = (c.element_to_graph.map (get_expectation le c)).sum
    rw [foldl_add_eq_sum, zero_add]
  · rw [expectation_calculation, h]
    simp

/-- Witness for C2 at the concrete state `cFix`. -/
theorem C2_witness :
    (expectation_calculation_serial leFix cFix).1
        = (cFix.element_to_graph.map (get_expectation leFix cFix)).sum
      ∧ (expectation_calculation_serial leFix cFix).2.expectation_path
        = cFix.expectation_path ++ [(expectation_calculation_serial leFix cFix).1]
      ∧ expectation_calculation leFix cFix
        = expectation_calculation_serial leFix cFix :=
  C2_serial_sum leFix cFix rfl

/-- C3: `expectation_calculation` with `is_parallel = True` (a pool map of
`get_expectation` over the elements followed by a sum) returns the same
total as the serial computation on the same instance. -/
theorem C3_parallel_equals_serial (le : LocalExpectation) (c : CBTState) :
    (expectation_calculation_parallel le c).1
      = (expectation_calculation_serial le c).1 := by
  show (c.element_to_graph.map (get_expectation le c)).sum
      = c.element_to_graph.foldl (fun acc item => acc + get_expectation le c item) 0
  rw [foldl_add_eq_sum, zero_add]

/-- The diagonal-rewriting loop of `get_Qmatrix`, entrywise: diagonal
entries below `node_num` are replaced by minus the off-diagonal row sum of
the adjacency matrix; all other entries are untouched. -/
lemma qmatrixLoop_apply (node_num : ℕ) (m : Mat) (a b : ℕ) :
    qmatrixLoop node_num m a b =
      if a = b ∧ a < node_num then
        -((∑ k ∈ Finset.range m.n, m.ent a k) - m.ent a a)
      else m.ent a b := by
  induction node_num with
  | zero => simp [qmatrixLoop]
  | succ nn ih =>
    have hstep : qmatrixLoop (nn + 1) m a b =
        (if a = nn ∧ b = nn then
          -((∑ k ∈ Finset.range m.n, m.ent nn k) - m.ent nn nn)
        else qmatrixLoop nn m a b) := by
      rw [qmatrixLoop, List.range_succ, List.foldl_append, List.foldl_cons,
        List.foldl_nil]
      rfl
    rw [hstep]
    by_cases hd : a = nn ∧ b = nn
    · rw [if_pos hd]
      rw [if_pos ⟨hd.1.trans hd.2.symm, by omega⟩, hd.1]
    · rw [if_neg hd, ih]
      by_cases he : a = b ∧ a < nn
      · rw [if_pos he, if_pos ⟨he.1, by omega⟩]
      · by_cases hf : a = b ∧ a < nn + 1
        · exfalso
          exact hd ⟨by omega, by omega⟩
        · rw [if_neg he, if_neg hf]

/-- C6: for a `MaxCut` state whose `_node_num` equals the dimension of its
graph's adjacency matrix `A`, `get_Qmatrix` returns the matrix equal to `A`
off the diagonal, and with `Q[i][i] = -(sum of row i of A - A[i][i])` on the
diagonal. -/
theorem C6_get_Qmatrix (s : MaxCutState) (h : s.node_num = s.graph.n) :
    (MaxCut.get_Qmatrix s).n = s.graph.n
      ∧ ∀ i j, i < s.graph.n → j < s.graph.n →
          ((i = j → (MaxCut.get_Qmatrix s).ent i i
              = -((∑ k ∈ Finset.range s.graph.n, s.graph.ent i k)
                  - s.graph.ent i i))
            ∧ (i ≠ j → (MaxCut.get_Qmatrix s).ent i j = s.graph.ent i j)) := by
  refine ⟨rfl, fun i j hi hj => ⟨fun hij => ?_, fun hij => ?_⟩⟩
  · show qmatrixLoop s.node_num s.graph i i = _
    rw [qmatrixLoop_apply, if_pos ⟨rfl, by omega⟩]
  · show qmatrixLoop s.node_num s.graph i j = _
    rw [qmatrixLoop_apply, if_neg (by tauto)]

/-- Witness for C6 at the concrete state `sFix`. -/
theorem C6_witness :
    sFix.node_num = sFix.graph.n
      ∧ (MaxCut.get_Qmatrix sFix).ent 1 1
          = -((∑ k ∈ Finset.range sFix.graph.n, sFix.graph.ent 1 k)
              - sFix.graph.ent 1 1)
      ∧ (MaxCut.get_Qmatrix sFix).ent 0 1 = sFix.graph.ent 0 1 :=
  ⟨rfl,
    ((C6_get_Qmatrix sFix rfl).2 1 1 (by norm_num [sFix])
      (by norm_num [sFix])).1 rfl,
    ((C6_get_Qmatrix sFix rfl).2 0 1 (by norm_num [sFix])
      (by norm_num [sFix])).2 (by norm_num)⟩

/-- Decomposition of a square double sum into its diagonal and its unordered
pairs, each pair `{j, i}` with `j < i` contributing both ordered terms. -/
lemma sum_sq_split (n : ℕ) (f : ℕ → ℕ → ℚ) :
    (∑ i ∈ Finset.range n, ∑ j ∈ Finset.range n, f i j)
      = (∑ i ∈ Finset.range n, f i i)
        + ∑ i ∈ Finset.range n, ∑ j ∈ Finset.range i, (f i j + f j i) := by
  induction n with
  | zero => simp
  | succ nn ih =>
    simp only [Finset.sum_range_succ, Finset.sum_add_distrib]
    rw [ih]
    simp only [Finset.sum_add_distrib]
    ring

/-- C10: `max_cut_value x w` is the sum over all ordered pairs of
`w[i][j] * x[i] * (1 - x[j])`; for a 0/1 vector the diagonal contributes
zero, and for a symmetric `w` the value is the total weight of the edges
crossing the cut, each unordered pair counted once. -/
theorem C10_max_cut_value (n : ℕ) (x : ℕ → ℚ) (w : ℕ → ℕ → ℚ)
    (hx : ∀ i, x i = 0 ∨ x i = 1) (hw : ∀ i j, w i j = w j i) :
    MaxCut.max_cut_value n x w
        = (∑ i ∈ Finset.range n, ∑ j ∈ Finset.range n, w i j * x i * (1 - x j))
      ∧ (∑ i ∈ Finset.range n, w i i * x i * (1 - x i)) = 0
      ∧ MaxCut.max_cut_value n x w
        = ∑ i ∈ Finset.range n, ∑ j ∈ Finset.range i,
            (if x i ≠ x j then w i j else 0) := by
  have hdiag : (∑ i ∈ Finset.range n, w i i * x i * (1 - x i)) = 0 := by
    refine Finset.sum_eq_zero fun i _ => ?_
    rcases hx i with h | h <;> rw [h] <;> ring
  refine ⟨?_, hdiag, ?_⟩
  · exact Finset.sum_congr rfl fun i _ => Finset.sum_congr rfl fun j _ => by ring
  · rw [MaxCut.max_cut_value, sum_sq_split n (fun i j => w i j * (x i * (1 - x j)))]
    have hd0 : (∑ i ∈ Finset.range n, w i i * (x i * (1 - x i))) = 0 := by
      refine Finset.sum_eq_zero fun i _ => ?_
      rcases hx i with h | h <;> rw [h] <;> ring
    rw [hd0, zero_add]
    refine Finset.sum_congr rfl fun i _ => Finset.sum_congr rfl fun j _ => ?_
    rcases hx i with hi | hi <;> rcases hx j with hj | hj <;>
      rw [hi, hj, hw j i] <;> norm_num

/-- Witness for C10 at `n = 2`, `x = (1, 0)`, `w = qXor`. -/
theorem C10_witness :
    MaxCut.max_cut_value 2 (fun i => if i = 0 then 1 else 0) qXor
        = (∑ i ∈ Finset.range 2, ∑ j ∈ Finset.range 2,
            qXor i j * (if i = 0 then (1 : ℚ) else 0) *
              (1 - if j = 0 then (1 : ℚ) else 0))
      ∧ (∑ i ∈ Finset.range 2,
          qXor i i * (if i = 0 then (1 : ℚ) else 0) *
            (1 - if i = 0 then (1 : ℚ) else 0)) = 0
      ∧ MaxCut.max_cut_value 2 (fun i => if i = 0 then 1 else 0) qXor
        = ∑ i ∈ Finset.range 2, ∑ j ∈ Finset.range i,
            (if (if i = 0 then (1 : ℚ) else 0) ≠ (if j = 0 then (1 : ℚ) else 0)
              then qXor i j else 0) :=
  C10_max_cut_value 2 (fun i => if i = 0 then 1 else 0) qXor
    (fun i => by by_cases h : i = 0 <;> simp [h])
    (fun i j => if_congr (by tauto) rfl rfl)

/-- C7, counterexample: `MaxCut.run` does not leave the instance's fields
unchanged: on a fresh instance it assigns the `_qmatrix` field. -/
theorem C7_counterexample : (MaxCut.run sFix).1.qmatrix ≠ sFix.qmatrix := by
  simp [MaxCut.run, sFix]

/-- C7, amended: the public operations keep no state other than two named
fields: `MaxCut.run` leaves `_node_num` and `_graph` unchanged on every
instance, on a fresh instance (`_qmatrix` still `None`) it stores the
computed Q matrix in `_qmatrix`, and it leaves the whole instance unchanged
whenever `_qmatrix` is already cached; and
`CircuitByTensor.expectation_calculation` leaves every field except
`_expectation_path` unchanged, appending its returned total there. -/
theorem C7_frame_effects (s : MaxCutState) (le : LocalExpectation)
    (c : CBTState) :
    ((MaxCut.run s).1.node_num = s.node_num
      ∧ (MaxCut.run s).1.graph = s.graph
      ∧ (s.qmatrix = none →
          (MaxCut.run s).1.qmatrix = some (MaxCut.get_Qmatrix s))
      ∧ (∀ q : Mat, s.qmatrix = some q → (MaxCut.run s).1 = s))
    ∧ ((expectation_calculation le c).2.p = c.p
      ∧ (expectation_calculation le c).2.nodes_weight = c.nodes_weight
      ∧ (expectation_calculation le c).2.edges_weight = c.edges_weight
      ∧ (expectation_calculation le c).2.is_parallel = c.is_parallel
      ∧ (expectation_calculation le c).2.opt = c.opt
      ∧ (expectation_calculation le c).2.element_to_graph = c.element_to_graph
      ∧ (expectation_calculation le c).2.pargs = c.pargs
      ∧ (expectation_calculation le c).2.expectation_path
          = c.expectation_path ++ [(expectation_calculation le c).1]) := by
  constructor
  · obtain ⟨nn, gg, qm⟩ := s
    refine ⟨rfl, rfl, fun hq => ?_, fun q hq => ?_⟩
    · obtain rfl : qm = none := hq
      rfl
    · obtain rfl : qm = some q := hq
      rfl
  · cases hb : c.is_parallel <;>
      simp [expectation_calculation, hb, expectation_calculation_serial,
        expectation_calculation_parallel]

/-- Witness for C7's amended theorem: the first-call case at the fresh state
`sFix`, the cached case at `sqFix`, and the `expectation_calculation` frame
at `cFix`. -/
theorem C7_witness :
    ((MaxCut.run sFix).1.node_num = sFix.node_num
      ∧ (MaxCut.run sFix).1.graph = sFix.graph
      ∧ (MaxCut.run sFix).1.qmatrix = some (MaxCut.get_Qmatrix sFix)
      ∧ (MaxCut.run sqFix).1 = sqFix)
    ∧ ((expectation_calculation leFix cFix).2.p = cFix.p
      ∧ (expectation_calculation leFix cFix).2.nodes_weight = cFix.nodes_weight
      ∧ (expectation_calculation leFix cFix).2.edges_weight = cFix.edges_weight
      ∧ (expectation_calculation leFix cFix).2.is_parallel = cFix.is_parallel
      ∧ (expectation_calculation leFix cFix).2.opt = cFix.opt
      ∧ (expectation_calculation leFix cFix).2.element_to_graph
          = cFix.element_to_graph
      ∧ (expectation_calculation leFix cFix).2.pargs = cFix.pargs
      ∧ (expectation_calculation leFix cFix).2.expectation_path
          = cFix.expectation_path ++ [(expectation_calculation leFix cFix).1]) :=
  ⟨⟨(C7_frame_effects sFix leFix cFix).1.1,
    (C7_frame_effects sFix leFix cFix).1.2.1,
    (C7_frame_effects sFix leFix cFix).1.2.2.1 rfl,
    (C7_frame_effects sqFix leFix cFix).1.2.2.2 ⟨2, qXor⟩ rfl⟩,
    (C7_frame_effects sqFix leFix cFix).2⟩

/-- C8: after a first `run`, `update_random_graph` replaces `_node_num` and
`_graph` but leaves the cached `_qmatrix` unchanged, so a subsequent `run`
returns the weighted graph derived from the original graph's Q matrix, the
same graph the original instance's `run` returns, not one derived from the
updated graph. -/
theorem C8_run_uses_cached_qmatrix (s : MaxCutState) (h : s.qmatrix = none)
    (n' : ℕ) (g' : Mat) :
    (MaxCut.update_random_graph (MaxCut.run s).1 n' g').qmatrix
        = (MaxCut.run s).1.qmatrix
      ∧ (MaxCut.run (MaxCut.update_random_graph (MaxCut.run s).1 n' g')).2
          = get_weights_graph (get_ising_matrixM (MaxCut.get_Qmatrix s)) none
      ∧ (MaxCut.run (MaxCut.update_random_graph (MaxCut.run s).1 n' g')).2
          = (MaxCut.run (MaxCut.run s).1).2 := by
  obtain ⟨nn, gg, qm⟩ := s
  obtain rfl : qm = none := h
  exact ⟨rfl, rfl, rfl⟩

/-- Witness for C8 at the concrete fresh state `sFix`, updating to the
replacement graph `gPrime`. -/
theorem C8_witness :
    (MaxCut.update_random_graph (MaxCut.run sFix).1 3 gPrime).qmatrix
        = (MaxCut.run sFix).1.qmatrix
      ∧ (MaxCut.run (MaxCut.update_random_graph (MaxCut.run sFix).1 3 gPrime)).2
          = get_weights_graph (get_ising_matrixM (MaxCut.get_Qmatrix sFix)) none
      ∧ (MaxCut.run (MaxCut.update_random_graph (MaxCut.run sFix).1 3 gPrime)).2
          = (MaxCut.run (MaxCut.run sFix).1).2 :=
  C8_run_uses_cached_qmatrix sFix rfl 3 gPrime

/-- Indexing into a list prefix: below the cut, `getD` on `take p` agrees
with `getD` on the whole list (`gamma_list[k]` is `_pargs[k]`). -/
lemma getD_take (l : List ℚ) (p k : ℕ) (h : k < p) :
    (l.take p).getD k 0 = l.getD k 0 := by
  simp [List.getD, List.getElem?_take_of_lt h]

/-- Indexing into a list suffix: `getD` on `drop p` shifts the index by `p`
(`beta_list[k]` is `_pargs[p + k]`). -/
lemma getD_drop (l : List ℚ) (p k : ℕ) :
    (l.drop p).getD k 0 = l.getD (p + k) 0 := by
  simp [List.getD, List.getElem?_drop]

/-- `flatMap` only depends on the function's values on the list. -/
lemma flatMap_congr {α β : Type} (l : List α) (f g : α → List β)
    (h : ∀ a ∈ l, f a = g a) : l.flatMap f = l.flatMap g := by
  induction l with
  | nil => rfl
  | cons x xs ih =>
    simp only [List.flatMap_cons]
    rw [h x (by simp), ih fun a ha => h a (by simp [ha])]

/-- The `node_to_qubit` write loop, characterised: on a duplicate-free node
list, a node that occurs in the list is mapped to the running index plus its
position; other arguments keep their previous value. -/
lemma n2qGo_apply (l : List ℕ) (hl : l.Nodup) :
    ∀ (k : ℕ) (mp : ℕ → ℕ) (nd : ℕ),
      n2qGo k l mp nd = if nd ∈ l then k + l.indexOf nd else mp nd := by
  induction l with
  | nil => intro k mp nd; simp [n2qGo]
  | cons hd tl ih =>
    intro k mp nd
    rw [n2qGo, ih (List.nodup_cons.mp hl).2 (k + 1) _ nd]
    by_cases h1 : nd ∈ tl
    · have hne : nd ≠ hd := fun he => (List.nodup_cons.mp hl).1 (he ▸ h1)
      rw [if_pos h1, if_pos (List.mem_cons_of_mem _ h1),
        List.indexOf_cons_ne _ (Ne.symm hne)]
      omega
    · by_cases h2 : nd = hd
      · subst h2
        rw [if_neg h1, Function.update_same, if_pos (List.mem_cons_self _ _),
          List.indexOf_cons_self]
        omega
      · rw [if_neg h1, Function.update_noteq h2, if_neg (by simp [h1, h2])]

/-- On a duplicate-free node list, `node_to_qubit` maps each node of the
list to its position in the list. -/
lemma node_to_qubit_indexOf (l : List ℕ) (hl : l.Nodup) (nd : ℕ)
    (hin : nd ∈ l) : node_to_qubit l nd = l.indexOf nd := by
  rw [node_to_qubit, n2qGo_apply l hl 0 _ nd, if_pos hin, Nat.zero_add]

/-- The circuit `get_expectation` builds coincides, gate for gate, with the
circuit the claim describes, on any element graph with duplicate-free nodes
whose edges join graph nodes. -/
lemma buildCircuit_eq_claimCircuit (c : CBTState) (g : QGraph)
    (hnd : g.nodes.Nodup)
    (hed : ∀ e ∈ g.edges, e.1 ∈ g.nodes ∧ e.2 ∈ g.nodes) :
    buildCircuit c.p (fun k => (c.pargs.take c.p).getD k 0)
      (fun k => (c.pargs.drop c.p).getD k 0) c.nodes_weight c.edges_weight g
      (node_to_qubit g.nodes) = claimCircuit c g := by
  rw [buildCircuit, claimCircuit]
  refine flatMap_congr _ _ _ fun k hk => ?_
  have hk' : k < c.p := List.mem_range.mp hk
  rw [buildLayer, claimLayer]
  have seg1 : (g.nodes.flatMap fun nd =>
      (if k = 0 then [Gate.H (node_to_qubit g.nodes nd)] else []) ++
        [Gate.rz (2 * (c.pargs.take c.p).getD k 0 * c.nodes_weight nd)
          (node_to_qubit g.nodes nd)])
      = g.nodes.flatMap fun nd =>
        (if k = 0 then [Gate.H (g.nodes.indexOf nd)] else []) ++
          [Gate.rz (2 * c.pargs.getD k 0 * c.nodes_weight nd)
            (g.nodes.indexOf nd)] := by
    refine flatMap_congr _ _ _ fun nd hin => ?_
    rw [node_to_qubit_indexOf g.nodes hnd nd hin, getD_take c.pargs c.p k hk']
  have seg2 : (g.edges.filterMap fun e =>
      if node_to_qubit g.nodes e.1 = node_to_qubit g.nodes e.2 then none
      else some (Gate.RZZ (-((c.pargs.take c.p).getD k 0) *
        c.edges_weight e.1 e.2) (node_to_qubit g.nodes e.1)
        (node_to_qubit g.nodes e.2)))
      = g.edges.filterMap fun e =>
        if e.1 = e.2 then none
        else some (Gate.RZZ (-(c.pargs.getD k 0) * c.edges_weight e.1 e.2)
          (g.nodes.indexOf e.1) (g.nodes.indexOf e.2)) := by
    refine List.filterMap_congr fun e he => ?_
    rw [node_to_qubit_indexOf g.nodes hnd e.1 (hed e he).1,
      node_to_qubit_indexOf g.nodes hnd e.2 (hed e he).2,
      getD_take c.pargs c.p k hk']
    exact if_congr (List.indexOf_inj (hed e he).1 (hed e he).2) rfl rfl
  have seg3 : (g.nodes.map fun nd =>
      Gate.rx (2 * (c.pargs.drop c.p).getD k 0) (node_to_qubit g.nodes nd))
      = g.nodes.map fun nd =>
        Gate.rx (2 * c.pargs.getD (c.p + k) 0) (g.nodes.indexOf nd) := by
    refine List.map_congr_left fun nd hin => ?_
    rw [node_to_qubit_indexOf g.nodes hnd nd hin, getD_drop c.pargs c.p k]
  rw [seg1, seg2, seg3]

/-- C4: on an element graph with duplicate-free nodes whose edges join graph
nodes and whose element lies in the graph, with `_pargs` of length `2*_p`,
`get_expectation` builds exactly the claimed circuit on one qubit per graph
node (H layer only at `k = 0`, `rz(2*gamma_k*w_nd)`,
`RZZ(-gamma_k*w_uv)` on edges with distinct endpoints, self-loops skipped,
then `rx(2*beta_k)`), and returns the real part of the local expectation of
`Z` (node element) or `Z ⊗ Z` (edge element) at the element's qubit(s),
times the element's weight. -/
theorem C4_get_expectation_circuit (le : LocalExpectation) (c : CBTState)
    (el : Element) (g : QGraph)
    (hnd : g.nodes.Nodup)
    (hed : ∀ e ∈ g.edges, e.1 ∈ g.nodes ∧ e.2 ∈ g.nodes)
    (hp : c.pargs.length = 2 * c.p)
    (hel : match el with
      | Element.node nd => nd ∈ g.nodes
      | Element.edge u v => u ∈ g.nodes ∧ v ∈ g.nodes) :
    get_expectation le c (el, g)
      = (le g.nodes.length (claimCircuit c g) (claimObs el)
          (claimWhere g el) c.opt).1 * claimWeight c el := by
  cases el with
  | node nd =>
    show (le g.nodes.length
        (buildCircuit c.p (fun k => (c.pargs.take c.p).getD k 0)
          (fun k => (c.pargs.drop c.p).getD k 0) c.nodes_weight
          c.edges_weight g (node_to_qubit g.nodes))
        Obs.Z [node_to_qubit g.nodes nd] c.opt).1 * c.nodes_weight nd = _
    rw [buildCircuit_eq_claimCircuit c g hnd hed,
      node_to_qubit_indexOf g.nodes hnd nd hel]
    rfl
  | edge u v =>
    show (le g.nodes.length
        (buildCircuit c.p (fun k => (c.pargs.take c.p).getD k 0)
          (fun k => (c.pargs.drop c.p).getD k 0) c.nodes_weight
          c.edges_weight g (node_to_qubit g.nodes))
        Obs.ZZ [node_to_qubit g.nodes u, node_to_qubit g.nodes v] c.opt).1 *
          c.edges_weight u v = _
    rw [buildCircuit_eq_claimCircuit c g hnd hed,
      node_to_qubit_indexOf g.nodes hnd u hel.1,
      node_to_qubit_indexOf g.nodes hnd v hel.2]
    rfl

/-- Witness for C4 at the concrete edge element `(5, 7)` of `gFix`, with
state `cFix`. -/
theorem C4_witness :
    gFix.nodes.Nodup
      ∧ cFix.pargs.length = 2 * cFix.p
      ∧ get_expectation leFix cFix (Element.edge 5 7, gFix)
        = (leFix gFix.nodes.length (claimCircuit cFix gFix)
            (claimObs (Element.edge 5 7)) (claimWhere gFix (Element.edge 5 7))
            cFix.opt).1 * claimWeight cFix (Element.edge 5 7) :=
  ⟨by decide, rfl,
    C4_get_expectation_circuit leFix cFix (Element.edge 5 7) gFix (by decide)
      (by decide) rfl (by decide)⟩

/-- Membership after the insert-if-absent node-list update. -/
lemma mem_insertNode (ns : List ℕ) (n x : ℕ) :
    (x ∈ if n ∈ ns then ns else ns ++ [n]) ↔ x ∈ ns ∨ x = n := by
  by_cases h : n ∈ ns
  · rw [if_pos h]
    exact ⟨fun hx => Or.inl hx, fun hx => hx.elim id fun he => he ▸ h⟩
  · rw [if_neg h]
    simp [List.mem_append]

/-- Node membership after `add_node`. -/
lemma mem_addNode (g : NXGraph) (n : ℕ) (w : ℚ) (x : ℕ) :
    x ∈ (g.addNode n w).nodes ↔ x ∈ g.nodes ∨ x = n :=
  mem_insertNode g.nodes n x

/-- Node membership after `add_edge`. -/
lemma mem_addEdge (g : NXGraph) (u v : ℕ) (w : ℚ) (x : ℕ) :
    x ∈ (g.addEdge u v w).nodes ↔ x ∈ g.nodes ∨ x = u ∨ x = v := by
  show (x ∈ if v ∈ _ then _ else _) ↔ _
  rw [mem_insertNode, mem_insertNode]
  tauto

/-- The loop body of `get_weights_graph` at the diagonal column. -/
lemma gwStep_diag (m : Mat) (nm : ℕ → ℕ) (i : ℕ) (g : NXGraph) :
    gwStep m nm i g i = g.addNode (nm i) (m.ent i i) := by
  rw [gwStep, if_pos rfl]

/-- The loop body of `get_weights_graph` at an off-diagonal column whose
entry is within the threshold: no change. -/
lemma gwStep_skip (m : Mat) (nm : ℕ → ℕ) (i : ℕ) (g : NXGraph) (j : ℕ)
    (h : ¬i = j) (ht : |m.ent i j - 0| ≤ 1 / 100000000) :
    gwStep m nm i g j = g := by
  rw [gwStep, if_neg h, if_pos ht]

/-- The loop body of `get_weights_graph` at an off-diagonal column whose
entry exceeds the threshold: an edge is written. -/
lemma gwStep_edge (m : Mat) (nm : ℕ → ℕ) (i : ℕ) (g : NXGraph) (j : ℕ)
    (h : ¬i = j) (ht : ¬|m.ent i j - 0| ≤ 1 / 100000000) :
    gwStep m nm i g j = g.addEdge (nm i) (nm j) (m.ent i j) := by
  rw [gwStep, if_neg h, if_neg ht]

/-- Inner column loop of `get_weights_graph` (identity node map), node
membership: row `i` contributes node `i` (at the diagonal column, or as an
endpoint of any written edge) and every column `j ≠ i` whose entry exceeds
the threshold. -/
lemma gw_inner_nodes (m : Mat) (i : ℕ) (l : List ℕ) :
    ∀ (g : NXGraph) (x : ℕ),
      x ∈ (l.foldl (gwStep m (fun t => t) i) g).nodes ↔
        (x ∈ g.nodes
          ∨ (x = i ∧ (i ∈ l ∨ ∃ j ∈ l, j ≠ i ∧ ¬|m.ent i j - 0| ≤ 1 / 100000000))
          ∨ (x ∈ l ∧ x ≠ i ∧ ¬|m.ent i x - 0| ≤ 1 / 100000000)) := by
  induction l with
  | nil => intro g x; simp
  | cons j l' ih =>
    intro g x
    rw [List.foldl_cons, ih]
    by_cases hj : i = j
    · subst hj
      rw [gwStep_diag, mem_addNode]
      constructor
      · rintro ((hg | rfl) | ⟨rfl, hC⟩ | ⟨hxl, hne, hB⟩)
        · exact Or.inl hg
        · exact Or.inr (Or.inl ⟨rfl, Or.inl (List.mem_cons_self _ _)⟩)
        · refine Or.inr (Or.inl ⟨rfl, ?_⟩)
          rcases hC with h | ⟨jj, hjj, hne2, hB2⟩
          · exact Or.inl (List.mem_cons_of_mem _ h)
          · exact Or.inr ⟨jj, List.mem_cons_of_mem _ hjj, hne2, hB2⟩
        · exact Or.inr (Or.inr ⟨List.mem_cons_of_mem _ hxl, hne, hB⟩)
      · rintro (hg | ⟨rfl, _⟩ | ⟨hxm, hne, hB⟩)
        · exact Or.inl (Or.inl hg)
        · exact Or.inl (Or.inr rfl)
        · rcases List.mem_cons.mp hxm with rfl | hxl
          · exact absurd rfl hne
          · exact Or.inr (Or.inr ⟨hxl, hne, hB⟩)
    · by_cases ht : |m.ent i j - 0| ≤ 1 / 100000000
      · rw [gwStep_skip m _ i g j hj ht]
        constructor
        · rintro (hg | ⟨rfl, hC⟩ | ⟨hxl, hne, hB⟩)
          · exact Or.inl hg
          · refine Or.inr (Or.inl ⟨rfl, ?_⟩)
            rcases hC with h | ⟨jj, hjj, hne2, hB2⟩
            · exact Or.inl (List.mem_cons_of_mem _ h)
            · exact Or.inr ⟨jj, List.mem_cons_of_mem _ hjj, hne2, hB2⟩
          · exact Or.inr (Or.inr ⟨List.mem_cons_of_mem _ hxl, hne, hB⟩)
        · rintro (hg | ⟨rfl, hC⟩ | ⟨hxm, hne, hB⟩)
          · exact Or.inl hg
          · refine Or.inr (Or.inl ⟨rfl, ?_⟩)
            rcases hC with hm | ⟨jj, hjj, hne2, hB2⟩
            · rcases List.mem_cons.mp hm with heq | hm'
              · exact absurd heq hj
              · exact Or.inl hm'
            · rcases List.mem_cons.mp hjj with rfl | hjj'
              · exact absurd ht hB2
              · exact Or.inr ⟨jj, hjj', hne2, hB2⟩
          · rcases List.mem_cons.mp hxm with rfl | hxl
            · exact absurd ht hB
            · exact Or.inr (Or.inr ⟨hxl, hne, hB⟩)
      · rw [gwStep_edge m _ i g j hj ht, mem_addEdge]
        constructor
        · rintro ((hg | rfl | rfl) | ⟨rfl, hC⟩ | ⟨hxl, hne, hB⟩)
          · exact Or.inl hg
          · exact Or.inr (Or.inl ⟨rfl,
              Or.inr ⟨j, List.mem_cons_self j l', fun h => hj h.symm, ht⟩⟩)
          · exact Or.inr (Or.inr
              ⟨List.mem_cons_self _ _, fun h => hj h.symm, ht⟩)
          · refine Or.inr (Or.inl ⟨rfl, ?_⟩)
            rcases hC with h | ⟨jj, hjj, hne2, hB2⟩
            · exact Or.inl (List.mem_cons_of_mem _ h)
            · exact Or.inr ⟨jj, List.mem_cons_of_mem _ hjj, hne2, hB2⟩
          · exact Or.inr (Or.inr ⟨List.mem_cons_of_mem _ hxl, hne, hB⟩)
        · rintro (hg | ⟨rfl, _⟩ | ⟨hxm, hne, hB⟩)
          · exact Or.inl (Or.inl hg)
          · exact Or.inl (Or.inr (Or.inl rfl))
          · rcases List.mem_cons.mp hxm with rfl | hxl
            · exact Or.inl (Or.inr (Or.inr rfl))
            · exact Or.inr (Or.inr ⟨hxl, hne, hB⟩)

/-- The diagonal loop body with the identity node map. -/
lemma gwStep_id_diag (m : Mat) (i : ℕ) (g : NXGraph) :
    gwStep m (fun t => t) i g i = g.addNode i (m.ent i i) := by
  rw [gwStep, if_pos rfl]

/-- The edge-writing loop body with the identity node map. -/
lemma gwStep_id_edge (m : Mat) (i : ℕ) (g : NXGraph) (j : ℕ)
    (h : ¬i = j) (ht : ¬|m.ent i j - 0| ≤ 1 / 100000000) :
    gwStep m (fun t => t) i g j = g.addEdge i j (m.ent i j) := by
  rw [gwStep, if_neg h, if_neg ht]

/-- Inner column loop of `get_weights_graph` (identity node map), node
weights: row `i` sets node `i`'s weight to the diagonal entry exactly when
the column range contains `i`, and touches no other node weight. -/
lemma gw_inner_nodew (m : Mat) (i : ℕ) (l : List ℕ) :
    ∀ (g : NXGraph) (x : ℕ),
      (l.foldl (gwStep m (fun t => t) i) g).nodew x
        = if x = i ∧ i ∈ l then some (m.ent i i) else g.nodew x := by
  induction l with
  | nil => intro g x; simp
  | cons j l' ih =>
    intro g x
    rw [List.foldl_cons, ih]
    by_cases hj : i = j
    · rw [← hj, gwStep_id_diag]
      by_cases hx : x = i
      · subst hx
        by_cases hl : x ∈ l'
        · rw [if_pos ⟨rfl, hl⟩, if_pos ⟨rfl, List.mem_cons_self x l'⟩]
        · rw [if_neg (by tauto), if_pos ⟨rfl, List.mem_cons_self x l'⟩]
          show Function.update g.nodew x (some (m.ent x x)) x = _
          rw [Function.update_same]
      · rw [if_neg (by tauto), if_neg (by tauto)]
        show Function.update g.nodew i (some (m.ent i i)) x = _
        rw [Function.update_noteq hx]
    · have hmem : (i ∈ j :: l') ↔ i ∈ l' := by
        simp [List.mem_cons, hj]
      by_cases ht : |m.ent i j - 0| ≤ 1 / 100000000
      · rw [gwStep_skip m _ i g j hj ht]
        by_cases hc : x = i ∧ i ∈ l'
        · rw [if_pos hc, if_pos ⟨hc.1, hmem.mpr hc.2⟩]
        · rw [if_neg hc, if_neg (by rw [hmem]; exact hc)]
      · rw [gwStep_id_edge m i g j hj ht]
        by_cases hc : x = i ∧ i ∈ l'
        · rw [if_pos hc, if_pos ⟨hc.1, hmem.mpr hc.2⟩]
        · rw [if_neg hc, if_neg (by rw [hmem]; exact hc)]
          rfl

/-- Inner column loop of `get_weights_graph` (identity node map), edge
weights: row `i` writes, symmetrically, the edge `{i, b}` with weight
`ent i b` for every column `b ≠ i` of the range whose entry exceeds the
threshold, and touches no other edge. -/
lemma gw_inner_edgew (m : Mat) (i : ℕ) (l : List ℕ) :
    ∀ (g : NXGraph) (a b : ℕ),
      (l.foldl (gwStep m (fun t => t) i) g).edgew a b
        = if a = i ∧ b ∈ l ∧ b ≠ i ∧ ¬|m.ent i b - 0| ≤ 1 / 100000000
            then some (m.ent i b)
          else if b = i ∧ a ∈ l ∧ a ≠ i ∧ ¬|m.ent i a - 0| ≤ 1 / 100000000
            then some (m.ent i a)
          else g.edgew a b := by
  induction l with
  | nil => intro g a b; simp
  | cons j l' ih =>
    intro g a b
    rw [List.foldl_cons, ih]
    by_cases hj : i = j
    · rw [← hj]
      have e1 : (a = i ∧ b ∈ i :: l' ∧ b ≠ i ∧ ¬|m.ent i b - 0| ≤ 1 / 100000000)
          ↔ (a = i ∧ b ∈ l' ∧ b ≠ i ∧ ¬|m.ent i b - 0| ≤ 1 / 100000000) := by
        constructor
        · rintro ⟨h1, hm, hne, hB⟩
          rcases List.mem_cons.mp hm with rfl | hm'
          · exact absurd rfl hne
          · exact ⟨h1, hm', hne, hB⟩
        · rintro ⟨h1, hm, hne, hB⟩
          exact ⟨h1, List.mem_cons_of_mem _ hm, hne, hB⟩
      have e2 : (b = i ∧ a ∈ i :: l' ∧ a ≠ i ∧ ¬|m.ent i a - 0| ≤ 1 / 100000000)
          ↔ (b = i ∧ a ∈ l' ∧ a ≠ i ∧ ¬|m.ent i a - 0| ≤ 1 / 100000000) := by
        constructor
        · rintro ⟨h1, hm, hne, hB⟩
          rcases List.mem_cons.mp hm with rfl | hm'
          · exact absurd rfl hne
          · exact ⟨h1, hm', hne, hB⟩
        · rintro ⟨h1, hm, hne, hB⟩
          exact ⟨h1, List.mem_cons_of_mem _ hm, hne, hB⟩
      rw [gwStep_id_diag]
      exact if_congr e1.symm rfl (if_congr e2.symm rfl rfl)
    · by_cases ht : |m.ent i j - 0| ≤ 1 / 100000000
      · rw [gwStep_skip m _ i g j hj ht]
        have e1 : (a = i ∧ b ∈ j :: l' ∧ b ≠ i ∧ ¬|m.ent i b - 0| ≤ 1 / 100000000)
            ↔ (a = i ∧ b ∈ l' ∧ b ≠ i ∧ ¬|m.ent i b - 0| ≤ 1 / 100000000) := by
          constructor
          · rintro ⟨h1, hm, hne, hB⟩
            rcases List.mem_cons.mp hm with rfl | hm'
            · exact absurd ht hB
            · exact ⟨h1, hm', hne, hB⟩
          · rintro ⟨h1, hm, hne, hB⟩
            exact ⟨h1, List.mem_cons_of_mem _ hm, hne, hB⟩
        have e2 : (b = i ∧ a ∈ j :: l' ∧ a ≠ i ∧ ¬|m.ent i a - 0| ≤ 1 / 100000000)
            ↔ (b = i ∧ a ∈ l' ∧ a ≠ i ∧ ¬|m.ent i a - 0| ≤ 1 / 100000000) := by
          constructor
          · rintro ⟨h1, hm, hne, hB⟩
            rcases List.mem_cons.mp hm with rfl | hm'
            · exact absurd ht hB
            · exact ⟨h1, hm', hne, hB⟩
          · rintro ⟨h1, hm, hne, hB⟩
            exact ⟨h1, List.mem_cons_of_mem _ hm, hne, hB⟩
        exact if_congr e1.symm rfl (if_congr e2.symm rfl rfl)
      · rw [gwStep_id_edge m i g j hj ht]
        by_cases h1 : a = i ∧ b ∈ l' ∧ b ≠ i ∧ ¬|m.ent i b - 0| ≤ 1 / 100000000
        · rw [if_pos h1,
            if_pos ⟨h1.1, List.mem_cons_of_mem _ h1.2.1, h1.2.2⟩]
        · by_cases h2 : b = i ∧ a ∈ l' ∧ a ≠ i ∧ ¬|m.ent i a - 0| ≤ 1 / 100000000
          · rw [if_neg h1, if_pos h2, if_neg (fun hc => h2.2.2.1 hc.1),
              if_pos ⟨h2.1, List.mem_cons_of_mem _ h2.2.1, h2.2.2⟩]
          · rw [if_neg h1, if_neg h2]
            by_cases hW : (a = i ∧ b = j) ∨ (a = j ∧ b = i)
            · show (if (a = i ∧ b = j) ∨ (a = j ∧ b = i)
                  then some (m.ent i j) else g.edgew a b) = _
              rw [if_pos hW]
              rcases hW with ⟨ha, hb⟩ | ⟨ha, hb⟩
              · subst ha; subst hb
                rw [if_pos ⟨rfl, List.mem_cons_self _ _, fun h => hj h.symm, ht⟩]
              · subst ha; subst hb
                rw [if_neg (fun hc => hj hc.1.symm),
                  if_pos ⟨rfl, List.mem_cons_self _ _, fun h => hj h.symm, ht⟩]
            · show (if (a = i ∧ b = j) ∨ (a = j ∧ b = i)
                  then some (m.ent i j) else g.edgew a b) = _
              rw [if_neg hW]
              have hc1 : ¬(a = i ∧ b ∈ j :: l' ∧ b ≠ i ∧
                  ¬|m.ent i b - 0| ≤ 1 / 100000000) := by
                rintro ⟨ha, hm, hne, hB⟩
                rcases List.mem_cons.mp hm with rfl | hm'
                · exact hW (Or.inl ⟨ha, rfl⟩)
                · exact h1 ⟨ha, hm', hne, hB⟩
              have hc2 : ¬(b = i ∧ a ∈ j :: l' ∧ a ≠ i ∧
                  ¬|m.ent i a - 0| ≤ 1 / 100000000) := by
                rintro ⟨hb, hm, hne, hB⟩
                rcases List.mem_cons.mp hm with rfl | hm'
                · exact hW (Or.inr ⟨rfl, hb⟩)
                · exact h2 ⟨hb, hm', hne, hB⟩
              rw [if_neg hc1, if_neg hc2]

/-- Outer row loop of `get_weights_graph` (identity node map), node
membership: after processing the rows of `l` (all below the matrix size),
the nodes are the previous ones, the processed rows, and every below-size
column joined to a processed row by an above-threshold entry. -/
lemma gw_outer_nodes (m : Mat) (l : List ℕ) (hl : ∀ r ∈ l, r < m.n) :
    ∀ (g : NXGraph) (x : ℕ),
      x ∈ (l.foldl
          (fun g i => (List.range m.n).foldl (gwStep m (fun t => t) i) g)
          g).nodes ↔
        (x ∈ g.nodes ∨ x ∈ l
          ∨ ∃ r ∈ l, x < m.n ∧ x ≠ r ∧ ¬|m.ent r x - 0| ≤ 1 / 100000000) := by
  induction l with
  | nil => intro g x; simp
  | cons i l' ih =>
    intro g x
    have hi : i < m.n := hl i (List.mem_cons_self _ _)
    rw [List.foldl_cons, ih (fun r hr => hl r (List.mem_cons_of_mem _ hr))]
    rw [gw_inner_nodes]
    constructor
    · rintro ((hg | ⟨rfl, _⟩ | ⟨hxr, hne, hB⟩) | hxl | ⟨r, hr, hrest⟩)
      · exact Or.inl hg
      · exact Or.inr (Or.inl (List.mem_cons_self _ _))
      · exact Or.inr (Or.inr ⟨i, List.mem_cons_self _ _,
          List.mem_range.mp hxr, hne, hB⟩)
      · exact Or.inr (Or.inl (List.mem_cons_of_mem _ hxl))
      · exact Or.inr (Or.inr ⟨r, List.mem_cons_of_mem _ hr, hrest⟩)
    · rintro (hg | hxm | ⟨r, hr, hxn, hne, hB⟩)
      · exact Or.inl (Or.inl hg)
      · rcases List.mem_cons.mp hxm with rfl | hxl
        · exact Or.inl (Or.inr (Or.inl ⟨rfl,
            Or.inl (List.mem_range.mpr hi)⟩))
        · exact Or.inr (Or.inl hxl)
      · rcases List.mem_cons.mp hr with rfl | hr'
        · exact Or.inl (Or.inr (Or.inr ⟨List.mem_range.mpr hxn, hne, hB⟩))
        · exact Or.inr (Or.inr ⟨r, hr', hxn, hne, hB⟩)

/-- Outer row loop of `get_weights_graph` (identity node map), node
weights: each processed row sets its node's weight to its diagonal
entry. -/
lemma gw_outer_nodew (m : Mat) (l : List ℕ) (hl : ∀ r ∈ l, r < m.n) :
    ∀ (g : NXGraph) (x : ℕ),
      (l.foldl
          (fun g i => (List.range m.n).foldl (gwStep m (fun t => t) i) g)
          g).nodew x
        = if x ∈ l then some (m.ent x x) else g.nodew x := by
  induction l with
  | nil => intro g x; simp
  | cons i l' ih =>
    intro g x
    have hi : i < m.n := hl i (List.mem_cons_self _ _)
    rw [List.foldl_cons, ih (fun r hr => hl r (List.mem_cons_of_mem _ hr))]
    rw [gw_inner_nodew]
    by_cases hxl : x ∈ l'
    · rw [if_pos hxl, if_pos (List.mem_cons_of_mem _ hxl)]
    · rw [if_neg hxl]
      by_cases hxi : x = i
      · subst hxi
        rw [if_pos ⟨rfl, List.mem_range.mpr hi⟩,
          if_pos (List.mem_cons_self _ _)]
      · rw [if_neg (by tauto), if_neg (by
          intro hm
          rcases List.mem_cons.mp hm with h | h
          · exact hxi h
          · exact hxl h)]

/-- Outer row loop of `get_weights_graph` (identity node map), edge
weights, for a symmetric matrix: after processing the rows of `l`, the
edge `{a, b}` carries weight `ent a b` exactly when one endpoint is a
processed row, the endpoints are distinct and below the matrix size, and
the entry exceeds the threshold. -/
lemma gw_outer_edgew (m : Mat) (hsym : ∀ i j, m.ent i j = m.ent j i)
    (l : List ℕ) (hl : ∀ r ∈ l, r < m.n) :
    ∀ (g : NXGraph) (a b : ℕ),
      (l.foldl
          (fun g i => (List.range m.n).foldl (gwStep m (fun t => t) i) g)
          g).edgew a b
        = if (a ∈ l ∨ b ∈ l) ∧ a ≠ b ∧ a < m.n ∧ b < m.n ∧
              ¬|m.ent a b - 0| ≤ 1 / 100000000
            then some (m.ent a b) else g.edgew a b := by
  induction l with
  | nil => intro g a b; simp
  | cons i l' ih =>
    intro g a b
    have hi : i < m.n := hl i (List.mem_cons_self _ _)
    rw [List.foldl_cons, ih (fun r hr => hl r (List.mem_cons_of_mem _ hr))]
    rw [gw_inner_edgew]
    by_cases h1 : (a ∈ l' ∨ b ∈ l') ∧ a ≠ b ∧ a < m.n ∧ b < m.n ∧
        ¬|m.ent a b - 0| ≤ 1 / 100000000
    · rw [if_pos h1, if_pos ⟨h1.1.imp (List.mem_cons_of_mem _)
        (List.mem_cons_of_mem _), h1.2⟩]
    · rw [if_neg h1]
      by_cases h2 : (a = i ∨ b = i) ∧ a ≠ b ∧ a < m.n ∧ b < m.n ∧
          ¬|m.ent a b - 0| ≤ 1 / 100000000
      · obtain ⟨hor, hne, han, hbn, hB⟩ := h2
        rcases hor with rfl | rfl
        · rw [if_pos ⟨rfl, List.mem_range.mpr hbn,
            fun h => hne h.symm, hB⟩]
          rw [if_pos ⟨Or.inl (List.mem_cons_self _ _), hne, han, hbn, hB⟩]
        · have hane : a ≠ b := hne
          rw [if_neg (by
            rintro ⟨rfl, _, hne2, _⟩
            exact hne rfl)]
          rw [if_pos ⟨rfl, List.mem_range.mpr han, hne,
            by rw [hsym b a]; exact hB⟩]
          rw [if_pos ⟨Or.inr (List.mem_cons_self _ _), hne, han, hbn, hB⟩,
            hsym b a]
      · have hc1 : ¬(a = i ∧ b ∈ List.range m.n ∧ b ≠ i ∧
            ¬|m.ent i b - 0| ≤ 1 / 100000000) := by
          rintro ⟨rfl, hbr, hbne, hB⟩
          exact h2 ⟨Or.inl rfl, fun h => hbne h.symm, hi,
            List.mem_range.mp hbr, hB⟩
        have hc2 : ¬(b = i ∧ a ∈ List.range m.n ∧ a ≠ i ∧
            ¬|m.ent i a - 0| ≤ 1 / 100000000) := by
          rintro ⟨rfl, har, hane, hB⟩
          refine h2 ⟨Or.inr rfl, hane, List.mem_range.mp har, hi, ?_⟩
          rw [hsym a b]; exact hB
        rw [if_neg hc1, if_neg hc2, if_neg (by
          rintro ⟨hor, hrest⟩
          rcases hor with hm | hm
          · rcases List.mem_cons.mp hm with rfl | hm'
            · exact h2 ⟨Or.inl rfl, hrest⟩
            · exact h1 ⟨Or.inl hm', hrest⟩
          · rcases List.mem_cons.mp hm with rfl | hm'
            · exact h2 ⟨Or.inr rfl, hrest⟩
            · exact h1 ⟨Or.inr hm', hrest⟩)]

/-- C5: for a symmetric matrix `M` of size `n`, `get_weights_graph(M, None)`
has node set exactly `{0, ..., n-1}`, node `i` carries weight `M[i][i]`, and
the edges are exactly the unordered pairs `{i, j}` with `i ≠ j` and
`|M[i][j]| > 1e-8`, each carrying weight `M[i][j]`; entries within `1e-8` of
zero produce no edge. -/
theorem C5_get_weights_graph (m : Mat) (hsym : ∀ i j, m.ent i j = m.ent j i) :
    (∀ x, x ∈ (get_weights_graph m none).nodes ↔ x < m.n)
      ∧ (∀ i, i < m.n → (get_weights_graph m none).nodew i = some (m.ent i i))
      ∧ (∀ i j, (get_weights_graph m none).edgew i j
          = if i < m.n ∧ j < m.n ∧ i ≠ j ∧ 1 / 100000000 < |m.ent i j|
              then some (m.ent i j) else none) := by
  have hrange : ∀ r ∈ List.range m.n, r < m.n := fun r hr => List.mem_range.mp hr
  have hunfold : get_weights_graph m none
      = (List.range m.n).foldl
          (fun g i => (List.range m.n).foldl (gwStep m (fun t => t) i) g)
          NXGraph.empty := rfl
  refine ⟨fun x => ?_, fun i hi => ?_, fun i j => ?_⟩
  · rw [hunfold, gw_outer_nodes m _ hrange]
    constructor
    · rintro (hg | hm | ⟨r, hr, hxn, _, _⟩)
      · exact absurd hg (List.not_mem_nil x)
      · exact List.mem_range.mp hm
      · exact hxn
    · intro hx
      exact Or.inr (Or.inl (List.mem_range.mpr hx))
  · rw [hunfold, gw_outer_nodew m _ hrange, if_pos (List.mem_range.mpr hi)]
  · rw [hunfold, gw_outer_edgew m hsym _ hrange]
    by_cases hc : i < m.n ∧ j < m.n ∧ i ≠ j ∧ 1 / 100000000 < |m.ent i j|
    · rw [if_pos ⟨Or.inl (List.mem_range.mpr hc.1), hc.2.2.1, hc.1, hc.2.1,
        by rw [sub_zero]; exact not_le.mpr hc.2.2.2⟩, if_pos hc]
    · rw [if_neg (by
        rintro ⟨_, hne, han, hbn, hB⟩
        rw [sub_zero] at hB
        exact hc ⟨han, hbn, hne, not_le.mp hB⟩), if_neg hc]
      rfl

/-- Witness for C5 at the concrete symmetric 2×2 matrix `qXor`. -/
theorem C5_witness :
    ((1 ∈ (get_weights_graph ⟨2, qXor⟩ none).nodes ↔ 1 < 2)
      ∧ (get_weights_graph ⟨2, qXor⟩ none).nodew 0 = some (qXor 0 0)
      ∧ (get_weights_graph ⟨2, qXor⟩ none).edgew 0 1
          = if 0 < 2 ∧ 1 < 2 ∧ 0 ≠ 1 ∧ (1 : ℚ) / 100000000 < |qXor 0 1|
              then some (qXor 0 1) else none) :=
  ⟨(C5_get_weights_graph ⟨2, qXor⟩
      (fun i j => if_congr (by tauto) rfl rfl)).1 1,
    (C5_get_weights_graph ⟨2, qXor⟩
      (fun i j => if_congr (by tauto) rfl rfl)).2.1 0 (by norm_num),
    (C5_get_weights_graph ⟨2, qXor⟩
      (fun i j => if_congr (by tauto) rfl rfl)).2.2 0 1⟩

/-- The minimisation loop of `get_most_small_ising` leaves its accumulator
untouched when no remaining key improves on the running minimum. -/
lemma gms_fold_above (nodew : List (ℕ × ℚ)) (edw : List ((ℕ × ℕ) × ℚ))
    (sc : List (List Bool × ℕ)) :
    ∀ (mh : ℚ) (r : Option (List ℕ)),
      (∀ kv ∈ sc, mh ≤ keyEnergy nodew edw kv.1) →
      sc.foldl (gmsStep nodew edw) (mh, r) = (mh, r) := by
  induction sc with
  | nil => intro mh r _; rfl
  | cons kv sc' ih =>
    intro mh r hall
    rw [List.foldl_cons, gmsStep,
      if_neg (not_lt.mpr (hall kv (List.mem_cons_self _ _)))]
    exact ih mh r fun v hv => hall v (List.mem_cons_of_mem _ hv)

/-- The minimisation loop of `get_most_small_ising`, when some key beats the
running minimum: the result is the first key attaining the minimum energy
(keys strictly before it have strictly greater energy), and the final
accumulator holds that minimum and that key. -/
lemma gms_fold_below (nodew : List (ℕ × ℚ)) (edw : List ((ℕ × ℕ) × ℚ))
    (sc : List (List Bool × ℕ)) :
    ∀ (mh : ℚ) (r : Option (List ℕ)),
      (∃ kv ∈ sc, keyEnergy nodew edw kv.1 < mh) →
      ∃ l1 k l2, sc = l1 ++ k :: l2
        ∧ keyEnergy nodew edw k.1 < mh
        ∧ (∀ kv ∈ l1, keyEnergy nodew edw k.1 < keyEnergy nodew edw kv.1)
        ∧ (∀ kv ∈ sc, keyEnergy nodew edw k.1 ≤ keyEnergy nodew edw kv.1)
        ∧ sc.foldl (gmsStep nodew edw) (mh, r)
            = (keyEnergy nodew edw k.1, some (keyToInts k.1)) := by
  induction sc with
  | nil => rintro mh r ⟨kv, hkv, _⟩; exact absurd hkv (List.not_mem_nil kv)
  | cons kv sc' ih =>
    intro mh r hex
    by_cases h : keyEnergy nodew edw kv.1 < mh
    · by_cases h2 : ∃ x ∈ sc', keyEnergy nodew edw x.1 <
          keyEnergy nodew edw kv.1
      · obtain ⟨l1', k', l2', hdec, hlt, hearl, hmin, hfold⟩ :=
          ih (keyEnergy nodew edw kv.1) (some (keyToInts kv.1)) h2
        refine ⟨kv :: l1', k', l2', ?_, lt_trans hlt h, ?_, ?_, ?_⟩
        · rw [List.cons_append, hdec]
        · rintro v hv
          rcases List.mem_cons.mp hv with rfl | hv'
          · exact hlt
          · exact hearl v hv'
        · rintro v hv
          rcases List.mem_cons.mp hv with rfl | hv'
          · exact le_of_lt hlt
          · exact hmin v hv'
        · rw [List.foldl_cons, gmsStep, if_pos h]
          exact hfold
      · push_neg at h2
        refine ⟨[], kv, sc', rfl, h, fun v hv => absurd hv (List.not_mem_nil v),
          ?_, ?_⟩
        · rintro v hv
          rcases List.mem_cons.mp hv with rfl | hv'
          · exact le_rfl
          · exact h2 v hv'
        · rw [List.foldl_cons, gmsStep, if_pos h]
          exact gms_fold_above nodew edw sc' _ _ h2
    · have h2 : ∃ x ∈ sc', keyEnergy nodew edw x.1 < mh := by
        obtain ⟨x, hx, hlt⟩ := hex
        rcases List.mem_cons.mp hx with rfl | hx'
        · exact absurd hlt h
        · exact ⟨x, hx', hlt⟩
      obtain ⟨l1', k', l2', hdec, hlt, hearl, hmin, hfold⟩ := ih mh r h2
      have hkvge : mh ≤ keyEnergy nodew edw kv.1 := not_lt.mp h
      refine ⟨kv :: l1', k', l2', ?_, hlt, ?_, ?_, ?_⟩
      · rw [List.cons_append, hdec]
      · rintro v hv
        rcases List.mem_cons.mp hv with rfl | hv'
        · exact lt_of_lt_of_le hlt hkvge
        · exact hearl v hv'
      · rintro v hv
        rcases List.mem_cons.mp hv with rfl | hv'
        · exact le_of_lt (lt_of_lt_of_le hlt hkvge)
        · exact hmin v hv'
      · rw [List.foldl_cons, gmsStep, if_neg (not_lt.mpr hkvge)]
        exact hfold

/-- C9: when `state_count` has keys indexing all nodes of `ising_g` and some
key has Ising energy below `999999`, `get_most_small_ising` returns the
first key, in iteration order, attaining the minimum energy, converted to a
list of integers; when every key's energy is at least `999999` it fails
(the unbound `res_state`, modelled as `none`) instead of returning. -/
theorem C9_get_most_small_ising (state_count : List (List Bool × ℕ))
    (nodew : List (ℕ × ℚ)) (edw : List ((ℕ × ℕ) × ℚ))
    (hkeys : ∀ kv ∈ state_count,
      (∀ p ∈ nodew, p.1 < kv.1.length) ∧
        (∀ p ∈ edw, p.1.1 < kv.1.length ∧ p.1.2 < kv.1.length)) :
    ((∃ kv ∈ state_count, keyEnergy nodew edw kv.1 < 999999) →
      ∃ l1 k l2, state_count = l1 ++ k :: l2
        ∧ keyEnergy nodew edw k.1 < 999999
        ∧ (∀ kv ∈ l1, keyEnergy nodew edw k.1 < keyEnergy nodew edw kv.1)
        ∧ (∀ kv ∈ state_count,
            keyEnergy nodew edw k.1 ≤ keyEnergy nodew edw kv.1)
        ∧ get_most_small_ising state_count nodew edw = some (keyToInts k.1))
    ∧ ((∀ kv ∈ state_count, 999999 ≤ keyEnergy nodew edw kv.1) →
      get_most_small_ising state_count nodew edw = none) := by
  constructor
  · intro hex
    obtain ⟨l1, k, l2, hdec, hlt, hearl, hmin, hfold⟩ :=
      gms_fold_below nodew edw state_count 999999 none hex
    exact ⟨l1, k, l2, hdec, hlt, hearl, hmin, by
      rw [get_most_small_ising, hfold]⟩
  · intro hall
    rw [get_most_small_ising, gms_fold_above nodew edw state_count _ _ hall]

/-- Witness for C9: on `scFix` the second key attains the minimum and is
returned; on `scHigh` every energy is at least `999999` and the result is
`none`. -/
theorem C9_witness :
    (∃ l1 k l2, scFix = l1 ++ k :: l2
      ∧ keyEnergy nodewFix edwFix k.1 < 999999
      ∧ (∀ kv ∈ l1,
          keyEnergy nodewFix edwFix k.1 < keyEnergy nodewFix edwFix kv.1)
      ∧ (∀ kv ∈ scFix,
          keyEnergy nodewFix edwFix k.1 ≤ keyEnergy nodewFix edwFix kv.1)
      ∧ get_most_small_ising scFix nodewFix edwFix = some (keyToInts k.1))
    ∧ get_most_small_ising scHigh nodewHigh [] = none :=
  ⟨(C9_get_most_small_ising scFix nodewFix edwFix
      (by norm_num [scFix, nodewFix, edwFix])).1
      ⟨([true, false], 1), List.mem_cons_self _ _, by
        norm_num [keyEnergy, twOf, nodewFix, edwFix, List.getD]⟩,
    (C9_get_most_small_ising scHigh nodewHigh []
      (by norm_num [scHigh, nodewHigh])).2
      (by norm_num [scHigh, keyEnergy, twOf, nodewHigh, List.getD])⟩
